import Mathlib

/-!
# Verification of `main.go` (big-kafka-conn)

A shallow embedding of the Kafka producer load generator in `main.go`:

* `formatValue` — the record formatter (`strconv.AppendInt` of the sequence
  number plus a space, tiled over the destination buffer by a `copy` loop);
* the shared rate counters `rateRecs`/`rateBytes` with their atomic
  operations (`atomic.AddInt64` from produce callbacks, `atomic.SwapInt64`
  from `printRate`'s one-second ticks), modelled as linearized traces of
  atomic operations;
* the produce-completion callback (`chk` then two atomic adds);
* `main`'s configuration phase (the `recordSize` check, the log-level
  switch, the compression switch, the `clients` check — each `die` prints a
  diagnostic and exits with status 1 before any worker goroutine starts);
* the per-worker produce loop's sequence counter `num`.

Machine `int64` values are modelled as `Int`; no claim here depends on
wrap-around, which is unreachable for the counting behaviour at issue.
-/

deriving instance DecidableEq for Except

/-- Go's `strings.ToLower`, modelled as lowercasing each character. -/
def strToLower (s : String) : String := ⟨s.data.map Char.toLower⟩

/-- The tile built at the top of `formatValue`:
`b := strconv.AppendInt(buf[:0], num, 10); b = append(b, ' ')` —
the decimal representation of `num` followed by one space. -/
def tileOf (num : Int) : List Char := (toString num).toList ++ [' ']

/-- The fill loop of `formatValue`:
`n := copy(v, b); for n != len(v) { n += copy(v[n:], b) }`.
Here `r` is the number of destination bytes still to fill (`len(v) - n`);
each `copy` writes `b.take r` and advances by `min r b.length`.  The loop
is given `fuel` iterations; since `b` is nonempty in every call site, each
iteration fills at least one byte, so fuel `len(v)` always suffices
(`fillLoop_length` and `formatValue_total` below make this exact). -/
def fillLoop (b : List Char) : Nat → Nat → List Char
  | _, 0 => []
  | 0, _ + 1 => []
  | fuel + 1, r + 1 => b.take (r + 1) ++ fillLoop b fuel (r + 1 - b.length)

/-- The contents of the destination buffer `v`, of length `size`, after
`formatValue(num, v)` (every byte of `v` is written). -/
def formatValue (num : Int) (size : Nat) : List Char :=
  fillLoop (tileOf num) size size

/-- State of the two shared counters `rateRecs` and `rateBytes`. -/
structure AggState where
  rateRecs : Int
  rateBytes : Int
deriving DecidableEq

/-- One atomic operation on the shared counters, at the granularity the
program actually uses them: `atomic.AddInt64(&rateRecs, n)`,
`atomic.AddInt64(&rateBytes, n)`, `atomic.SwapInt64(&rateRecs, 0)`,
`atomic.SwapInt64(&rateBytes, 0)`. -/
inductive AggOp
  | addRecs (n : Int)
  | addBytes (n : Int)
  | swapRecs
  | swapBytes
deriving DecidableEq

/-- Run a linearized trace of atomic operations from state `s`, returning the
final state together with the values returned by the `rateRecs` swaps and by
the `rateBytes` swaps (the per-tick drain outputs of `printRate`). -/
def aggRun : AggState → List AggOp → AggState × List Int × List Int
  | s, [] => (s, [], [])
  | s, AggOp.addRecs n :: ops => aggRun ⟨s.rateRecs + n, s.rateBytes⟩ ops
  | s, AggOp.addBytes n :: ops => aggRun ⟨s.rateRecs, s.rateBytes + n⟩ ops
  | s, AggOp.swapRecs :: ops =>
    let r := aggRun ⟨0, s.rateBytes⟩ ops
    (r.1, s.rateRecs :: r.2.1, r.2.2)
  | s, AggOp.swapBytes :: ops =>
    let r := aggRun ⟨s.rateRecs, 0⟩ ops
    (r.1, r.2.1, s.rateBytes :: r.2.2)

/-- The two atomic adds performed by one successful produce callback. -/
def addRecords (n b : Int) : List AggOp := [AggOp.addRecs n, AggOp.addBytes b]

/-- The two swaps performed by one tick of `printRate` (one drain). -/
def drainOps : List AggOp := [AggOp.swapRecs, AggOp.swapBytes]

/-- Contribution of one operation to the `rateRecs` counter. -/
def recsDelta : AggOp → Int
  | AggOp.addRecs n => n
  | _ => 0

/-- Contribution of one operation to the `rateBytes` counter. -/
def bytesDelta : AggOp → Int
  | AggOp.addBytes n => n
  | _ => 0

/-- Total records added over a trace. -/
def addedRecs (t : List AggOp) : Int := (t.map recsDelta).sum

/-- Total bytes added over a trace. -/
def addedBytes (t : List AggOp) : Int := (t.map bytesDelta).sum

/-- Total records returned across all drains of a trace started from zeroed
counters. -/
def drainedRecsTotal (t : List AggOp) : Int := ((aggRun ⟨0, 0⟩ t).2.1).sum

/-- Total bytes returned across all drains of a trace started from zeroed
counters. -/
def drainedBytesTotal (t : List AggOp) : Int := ((aggRun ⟨0, 0⟩ t).2.2).sum

/-- Number of occurrences of operation `o` in a trace. -/
def countOp (o : AggOp) : List AggOp → Nat
  | [] => 0
  | x :: ops => (if x = o then 1 else 0) + countOp o ops

/-- The completion callback passed to `client.Produce`:
`chk(err, "produce error: %v", err)` followed by the two atomic adds.
`chk` calls `die`, which prints the diagnostic to stderr and calls
`os.Exit(1)`; so on an error the counters are left untouched and the process
exits with status 1 (modelled by the `some (diagnostic, exitCode)` output),
and on success the counters are incremented by `(1, recordSize)`. -/
def produceCallback (recordSize : Int) (s : AggState) (err : Option String) :
    AggState × Option (String × Nat) :=
  match err with
  | some e => (s, some ("produce error: " ++ e, 1))
  | none => (⟨s.rateRecs + 1, s.rateBytes + recordSize⟩, none)

/-- The compression codecs accepted by `main`'s switch. -/
def validCompressions : List String := ["none", "gzip", "snappy", "lz4", "zstd"]

/-- The log levels accepted by `main`'s switch (empty string = no logger). -/
def validLogLevels : List String := ["", "debug", "info", "warn", "error"]

/-- The log levels of `kgo.BasicLogger`. -/
inductive LogLevel
  | debug
  | info
  | warn
  | err
deriving DecidableEq

/-- Outcome of the log-level switch: either no logger option is appended, or
a basic logger at the given level is. -/
inductive LogSelection
  | noLogger
  | basicLogger (level : LogLevel)
deriving DecidableEq

/-- The compression codec option appended by the compression switch. -/
inductive Compression
  | none
  | gzip
  | snappy
  | lz4
  | zstd
deriving DecidableEq

/-- The `switch strings.ToLower(*logLevel)` in `main`: selects the logger
option or `die`s with "unrecognized log level %s" (exit status 1). -/
def selectLogLevel (s : String) : Except (String × Nat) LogSelection :=
  if strToLower s = "" then Except.ok LogSelection.noLogger
  else if strToLower s = "debug" then Except.ok (LogSelection.basicLogger LogLevel.debug)
  else if strToLower s = "info" then Except.ok (LogSelection.basicLogger LogLevel.info)
  else if strToLower s = "warn" then Except.ok (LogSelection.basicLogger LogLevel.warn)
  else if strToLower s = "error" then Except.ok (LogSelection.basicLogger LogLevel.err)
  else Except.error ("unrecognized log level " ++ s, 1)

/-- The `switch strings.ToLower(*compression)` in `main`: selects the codec
or `die`s with "unrecognized compression %s" (exit status 1). -/
def selectCompression (s : String) : Except (String × Nat) Compression :=
  if strToLower s = "none" then Except.ok Compression.none
  else if strToLower s = "gzip" then Except.ok Compression.gzip
  else if strToLower s = "snappy" then Except.ok Compression.snappy
  else if strToLower s = "lz4" then Except.ok Compression.lz4
  else if strToLower s = "zstd" then Except.ok Compression.zstd
  else Except.error ("unrecognized compression " ++ s, 1)

/-- The configuration phase of `main`, in source order: the `*recordSize <= 0`
check, the log-level switch, the compression switch, and the `*clients <= 0`
check.  Each failing check `die`s: a one-line diagnostic and exit status 1,
before `printRate` or any worker goroutine is started.  `Except.ok` carries
the selections the workers are then started with. -/
def validateConfig (recordSize numClients : Int) (logLevel compression : String) :
    Except (String × Nat) (LogSelection × Compression) :=
  if recordSize ≤ 0 then Except.error ("record bytes must be larger than zero", 1)
  else
    match selectLogLevel logLevel with
    | Except.error e => Except.error e
    | Except.ok lv =>
      match selectCompression compression with
      | Except.error e => Except.error e
      | Except.ok comp =>
        if numClients ≤ 0 then Except.error ("number of clients must be positive", 1)
        else Except.ok (lv, comp)

/-- The value `50<<20 / *recordSize + 1` passed to `kgo.MaxBufferedRecords`
in the client options in `main` (Go integer division; `recordSize > 0` was
checked). -/
def maxBufferedRecords (recordSize : Nat) : Nat := 50 <<< 20 / recordSize + 1

/-- The worker's sequence counter `num` after `k` loop iterations:
`var num int64` starts it at 0 and `num++` runs once per produce attempt. -/
def workerNumAfter : Nat → Int
  | 0 => 0
  | k + 1 => workerNumAfter k + 1

/-- The payload submitted on the worker's `k`-th iteration (0-based):
`r := kgo.SliceRecord(make([]byte, *recordSize)); formatValue(num, r.Value)`
with `num = workerNumAfter k`. -/
def submittedPayload (recordSize : Nat) (k : Nat) : List Char :=
  formatValue (workerNumAfter k) recordSize

/-! ## Helper lemmas: the record formatter -/

theorem tileOf_length_pos (num : Int) : 0 < (tileOf num).length := by
  simp [tileOf]

theorem fillLoop_length (b : List Char) (hb : 0 < b.length) :
    ∀ fuel r, r ≤ fuel → (fillLoop b fuel r).length = r := by
  intro fuel
  induction fuel with
  | zero =>
    intro r hr
    obtain rfl : r = 0 := Nat.le_zero.mp hr
    rfl
  | succ n ih =>
    intro r hr
    match r with
    | 0 => rfl
    | m + 1 =>
      have hrec := ih (m + 1 - b.length) (by omega)
      simp only [fillLoop, List.length_append, List.length_take, hrec]
      omega

theorem fillLoop_eq_take_flatten (b : List Char) (hb : 0 < b.length) :
    ∀ fuel r m, r ≤ fuel → r ≤ m * b.length →
      fillLoop b fuel r = (List.flatten (List.replicate m b)).take r := by
  intro fuel
  induction fuel with
  | zero =>
    intro r m hr hm
    obtain rfl : r = 0 := Nat.le_zero.mp hr
    simp [fillLoop]
  | succ n ih =>
    intro r m hr hm
    match r with
    | 0 => simp [fillLoop]
    | s + 1 =>
      match m with
      | 0 => omega
      | q + 1 =>
        have hq : s + 1 - b.length ≤ q * b.length := by
          have hsm : (q + 1) * b.length = q * b.length + b.length := by ring
          omega
        have hrec := ih (s + 1 - b.length) q (by omega) hq
        simp only [fillLoop, List.replicate_succ, List.flatten_cons,
          List.take_append_eq_append_take, hrec]

theorem formatValue_length (num : Int) (size : Nat) :
    (formatValue num size).length = size :=
  fillLoop_length (tileOf num) (tileOf_length_pos num) size size le_rfl

theorem formatValue_eq_take_flatten (num : Int) (size : Nat) :
    formatValue num size = (List.flatten (List.replicate size (tileOf num))).take size :=
  fillLoop_eq_take_flatten (tileOf num) (tileOf_length_pos num) size size size le_rfl
    (Nat.le_mul_of_pos_right size (tileOf_length_pos num))

/-! ## Claim theorems: the record formatter -/

/-- C3: for every sequence number `seq ≥ 0` and every `size > 0`, the record
formatter produces an output of length exactly `size`. -/
theorem formatValue_length_spec (seq : Int) (size : Nat)
    (hseq : 0 ≤ seq) (hsize : 0 < size) :
    (formatValue seq size).length = size :=
  formatValue_length seq size

theorem formatValue_length_spec_witness :
    0 ≤ (7 : Int) ∧ 0 < 5 ∧ (formatValue 7 5).length = 5 :=
  ⟨by decide, by decide, formatValue_length_spec 7 5 (by decide) (by decide)⟩

/-- C10: the formatter is a total terminating function for every input — for
any `seq : Int` (including negative values) and any destination length
`size ≥ 0`, the fill loop terminates within `size` iterations (giving it any
extra fuel changes nothing, because the nonempty tile advances the fill
position by at least one byte each iteration) and it writes exactly the
`size` destination bytes, never out of bounds. -/
theorem formatValue_total (seq : Int) (size : Nat) :
    (formatValue seq size).length = size ∧
    ∀ extra, fillLoop (tileOf seq) (size + extra) size = formatValue seq size := by
  refine ⟨formatValue_length seq size, fun extra => ?_⟩
  rw [formatValue, fillLoop_eq_take_flatten (tileOf seq) (tileOf_length_pos seq)
      (size + extra) size size (by omega)
      (Nat.le_mul_of_pos_right size (tileOf_length_pos seq)),
    fillLoop_eq_take_flatten (tileOf seq) (tileOf_length_pos seq)
      size size size le_rfl
      (Nat.le_mul_of_pos_right size (tileOf_length_pos seq))]

/-- C4: for every `seq ≥ 0` and `size > 0`, the formatted record equals the
tile `"<seq> "` (decimal digits of `seq` then one space) repeated and
truncated to exactly `size` bytes; in particular, whenever `size` is at
least the tile length, the output's first bytes are the decimal digits of
`seq` followed by a space. -/
theorem formatValue_tiling (seq : Int) (size : Nat)
    (hseq : 0 ≤ seq) (hsize : 0 < size) :
    formatValue seq size = (List.flatten (List.replicate size (tileOf seq))).take size ∧
    ((tileOf seq).length ≤ size →
      (formatValue seq size).take (tileOf seq).length = (toString seq).toList ++ [' ']) := by
  refine ⟨formatValue_eq_take_flatten seq size, fun hle => ?_⟩
  rw [formatValue_eq_take_flatten seq size, List.take_take, min_eq_left hle]
  match size, hsize with
  | m + 1, _ =>
    rw [List.replicate_succ, List.flatten_cons, List.take_append_eq_append_take,
      Nat.sub_self, List.take_zero, List.append_nil, List.take_of_length_le le_rfl]
    rfl

theorem formatValue_tiling_witness :
    0 ≤ (12 : Int) ∧ 0 < 7 ∧
    (formatValue 12 7 = (List.flatten (List.replicate 7 (tileOf 12))).take 7 ∧
      ((tileOf 12).length ≤ 7 →
        (formatValue 12 7).take (tileOf 12).length = (toString (12 : Int)).toList ++ [' '])) :=
  ⟨by decide, by decide, formatValue_tiling 12 7 (by decide) (by decide)⟩

/-! ## Helper lemmas: the rate aggregator -/

theorem aggRun_recs_conservation :
    ∀ (t : List AggOp) (s : AggState),
      ((aggRun s t).2.1).sum + (aggRun s t).1.rateRecs = s.rateRecs + addedRecs t := by
  intro t
  induction t with
  | nil => intro s; simp [aggRun, addedRecs]
  | cons op ops ih =>
    intro s
    cases op with
    | addRecs n =>
      simp only [aggRun, addedRecs, List.map_cons, List.sum_cons] at *
      have := ih ⟨s.rateRecs + n, s.rateBytes⟩
      simp only [recsDelta] at *
      omega
    | addBytes n =>
      simp only [aggRun, addedRecs, List.map_cons, List.sum_cons] at *
      have := ih ⟨s.rateRecs, s.rateBytes + n⟩
      simp only [recsDelta] at *
      omega
    | swapRecs =>
      simp only [aggRun, addedRecs, List.map_cons, List.sum_cons] at *
      have := ih ⟨0, s.rateBytes⟩
      simp only [recsDelta] at *
      omega
    | swapBytes =>
      simp only [aggRun, addedRecs, List.map_cons, List.sum_cons] at *
      have := ih ⟨s.rateRecs, 0⟩
      simp only [recsDelta] at *
      omega

theorem aggRun_bytes_conservation :
    ∀ (t : List AggOp) (s : AggState),
      ((aggRun s t).2.2).sum + (aggRun s t).1.rateBytes = s.rateBytes + addedBytes t := by
  intro t
  induction t with
  | nil => intro s; simp [aggRun, addedBytes]
  | cons op ops ih =>
    intro s
    cases op with
    | addRecs n =>
      simp only [aggRun, addedBytes, List.map_cons, List.sum_cons] at *
      have := ih ⟨s.rateRecs + n, s.rateBytes⟩
      simp only [bytesDelta] at *
      omega
    | addBytes n =>
      simp only [aggRun, addedBytes, List.map_cons, List.sum_cons] at *
      have := ih ⟨s.rateRecs, s.rateBytes + n⟩
      simp only [bytesDelta] at *
      omega
    | swapRecs =>
      simp only [aggRun, addedBytes, List.map_cons, List.sum_cons] at *
      have := ih ⟨0, s.rateBytes⟩
      simp only [bytesDelta] at *
      omega
    | swapBytes =>
      simp only [aggRun, addedBytes, List.map_cons, List.sum_cons] at *
      have := ih ⟨s.rateRecs, 0⟩
      simp only [bytesDelta] at *
      omega

theorem aggRun_final_drain (t : List AggOp) :
    ∀ s : AggState, (aggRun s (t ++ drainOps)).1 = ⟨0, 0⟩ := by
  induction t with
  | nil => intro s; rfl
  | cons op ops ih =>
    intro s
    cases op <;> simp only [List.cons_append, aggRun] <;> exact ih _

theorem addedRecs_append (t₁ t₂ : List AggOp) :
    addedRecs (t₁ ++ t₂) = addedRecs t₁ + addedRecs t₂ := by
  simp [addedRecs]

theorem addedBytes_append (t₁ t₂ : List AggOp) :
    addedBytes (t₁ ++ t₂) = addedBytes t₁ + addedBytes t₂ := by
  simp [addedBytes]

theorem addedRecs_of_unit_adds (b : Int) :
    ∀ t : List AggOp,
      (∀ op ∈ t, op = AggOp.addRecs 1 ∨ op = AggOp.addBytes b ∨
        op = AggOp.swapRecs ∨ op = AggOp.swapBytes) →
      addedRecs t = (countOp (AggOp.addRecs 1) t : Int) := by
  intro t
  induction t with
  | nil => intro _; simp [addedRecs, countOp]
  | cons op ops ih =>
    intro h
    have htail := fun o ho => h o (List.mem_cons_of_mem op ho)
    have ih' := ih htail
    simp only [addedRecs, List.map_cons, List.sum_cons] at ih' ⊢
    rcases h op (List.mem_cons_self op ops) with rfl | rfl | rfl | rfl <;>
      simp [recsDelta, countOp] <;> omega

theorem addedBytes_of_unit_adds (b : Int) :
    ∀ t : List AggOp,
      (∀ op ∈ t, op = AggOp.addRecs 1 ∨ op = AggOp.addBytes b ∨
        op = AggOp.swapRecs ∨ op = AggOp.swapBytes) →
      addedBytes t = (countOp (AggOp.addBytes b) t : Int) * b := by
  intro t
  induction t with
  | nil => intro _; simp [addedBytes, countOp]
  | cons op ops ih =>
    intro h
    have htail := fun o ho => h o (List.mem_cons_of_mem op ho)
    have ih' := ih htail
    simp only [addedBytes, List.map_cons, List.sum_cons] at ih' ⊢
    rcases h op (List.mem_cons_self op ops) with rfl | rfl | rfl | rfl
    · have hne : AggOp.addRecs 1 ≠ AggOp.addBytes b := by simp
      simp [bytesDelta, countOp, hne, ih']
    · simp [bytesDelta, countOp, ih']
      ring
    · simp [bytesDelta, countOp, ih']
    · simp [bytesDelta, countOp, ih']

theorem aggRun_adds_prefix :
    ∀ (t : List AggOp),
      (∀ op ∈ t, (∃ n, op = AggOp.addRecs n) ∨ ∃ n, op = AggOp.addBytes n) →
      ∀ (rest : List AggOp) (s : AggState),
        aggRun s (t ++ rest) =
          aggRun ⟨s.rateRecs + addedRecs t, s.rateBytes + addedBytes t⟩ rest := by
  intro t
  induction t with
  | nil =>
    intro _ rest s
    simp [addedRecs, addedBytes]
  | cons op ops ih =>
    intro h rest s
    have htail := fun o ho => h o (List.mem_cons_of_mem op ho)
    rcases h op (List.mem_cons_self op ops) with ⟨n, rfl⟩ | ⟨n, rfl⟩
    · rw [List.cons_append]
      show aggRun ⟨s.rateRecs + n, s.rateBytes⟩ (ops ++ rest) = _
      rw [ih htail rest ⟨s.rateRecs + n, s.rateBytes⟩]
      simp only [addedRecs, addedBytes, List.map_cons, List.sum_cons, recsDelta, bytesDelta]
      norm_num [add_assoc]
    · rw [List.cons_append]
      show aggRun ⟨s.rateRecs, s.rateBytes + n⟩ (ops ++ rest) = _
      rw [ih htail rest ⟨s.rateRecs, s.rateBytes + n⟩]
      simp only [addedRecs, addedBytes, List.map_cons, List.sum_cons, recsDelta, bytesDelta]
      norm_num [add_assoc]

theorem mem_flatten_replicate_addRecords (k : Nat) (b : Int) (op : AggOp)
    (hop : op ∈ List.flatten (List.replicate k (addRecords 1 b))) :
    op = AggOp.addRecs 1 ∨ op = AggOp.addBytes b := by
  rw [List.mem_flatten] at hop
  obtain ⟨l, hl, hopl⟩ := hop
  rw [List.eq_of_mem_replicate hl] at hopl
  simpa [addRecords] using hopl

theorem addedRecs_flatten_replicate (b : Int) :
    ∀ k : Nat, addedRecs (List.flatten (List.replicate k (addRecords 1 b))) = k := by
  intro k
  induction k with
  | zero => simp [addedRecs]
  | succ m ih =>
    rw [List.replicate_succ, List.flatten_cons, addedRecs_append, ih]
    simp [addedRecs, addRecords, recsDelta]
    ring

theorem addedBytes_flatten_replicate (b : Int) :
    ∀ k : Nat, addedBytes (List.flatten (List.replicate k (addRecords 1 b))) = k * b := by
  intro k
  induction k with
  | zero => simp [addedBytes]
  | succ m ih =>
    rw [List.replicate_succ, List.flatten_cons, addedBytes_append, ih]
    simp [addedBytes, addRecords, bytesDelta]
    ring

theorem addedRecs_perm {t₁ t₂ : List AggOp} (h : t₁.Perm t₂) :
    addedRecs t₁ = addedRecs t₂ :=
  (h.map recsDelta).sum_eq

theorem addedBytes_perm {t₁ t₂ : List AggOp} (h : t₁.Perm t₂) :
    addedBytes t₁ = addedBytes t₂ :=
  (h.map bytesDelta).sum_eq

/-! ## Claim theorems: the rate aggregator -/

/-- C1: conservation of counts.  Over any linearized run `t` of the atomic
operations — `N` workers together contributing `N*M` successful
acknowledgment callbacks (each an `addRecs 1` and an `addBytes b`,
`b = recordSize`), arbitrarily interleaved with each other and with
`printRate`'s swaps — the total records returned across all drains over the
program's lifetime (the reporter keeps draining after the last increment,
hence the trailing drain) is exactly `N*M`, and the total bytes `N*M*b`:
no increment is lost or counted twice. -/
theorem aggregator_conservation (b : Int) (N M : Nat) (t : List AggOp)
    (hall : ∀ op ∈ t, op = AggOp.addRecs 1 ∨ op = AggOp.addBytes b ∨
      op = AggOp.swapRecs ∨ op = AggOp.swapBytes)
    (hrecs : countOp (AggOp.addRecs 1) t = N * M)
    (hbytes : countOp (AggOp.addBytes b) t = N * M) :
    drainedRecsTotal (t ++ drainOps) = (N * M : Nat) ∧
    drainedBytesTotal (t ++ drainOps) = (N * M : Nat) * b := by
  constructor
  · have hc := aggRun_recs_conservation (t ++ drainOps) ⟨0, 0⟩
    rw [aggRun_final_drain t ⟨0, 0⟩] at hc
    have ha : addedRecs (t ++ drainOps) = addedRecs t := by
      rw [addedRecs_append]
      simp [addedRecs, drainOps, recsDelta]
    rw [drainedRecsTotal]
    rw [ha] at hc
    rw [addedRecs_of_unit_adds b t hall, hrecs] at hc
    simpa using hc
  · have hc := aggRun_bytes_conservation (t ++ drainOps) ⟨0, 0⟩
    rw [aggRun_final_drain t ⟨0, 0⟩] at hc
    have ha : addedBytes (t ++ drainOps) = addedBytes t := by
      rw [addedBytes_append]
      simp [addedBytes, drainOps, bytesDelta]
    rw [drainedBytesTotal]
    rw [ha] at hc
    rw [addedBytes_of_unit_adds b t hall, hbytes] at hc
    simpa using hc

theorem aggregator_conservation_witness :
    (∀ op ∈ ([AggOp.addRecs 1, AggOp.addBytes 3, AggOp.addRecs 1, AggOp.swapRecs,
        AggOp.addBytes 3, AggOp.swapBytes, AggOp.addRecs 1, AggOp.addBytes 3,
        AggOp.addRecs 1, AggOp.addBytes 3] : List AggOp),
      op = AggOp.addRecs 1 ∨ op = AggOp.addBytes 3 ∨
        op = AggOp.swapRecs ∨ op = AggOp.swapBytes) ∧
    countOp (AggOp.addRecs 1) [AggOp.addRecs 1, AggOp.addBytes 3, AggOp.addRecs 1,
      AggOp.swapRecs, AggOp.addBytes 3, AggOp.swapBytes, AggOp.addRecs 1,
      AggOp.addBytes 3, AggOp.addRecs 1, AggOp.addBytes 3] = 2 * 2 ∧
    drainedRecsTotal ([AggOp.addRecs 1, AggOp.addBytes 3, AggOp.addRecs 1,
      AggOp.swapRecs, AggOp.addBytes 3, AggOp.swapBytes, AggOp.addRecs 1,
      AggOp.addBytes 3, AggOp.addRecs 1, AggOp.addBytes 3] ++ drainOps) = (2 * 2 : Nat) ∧
    drainedBytesTotal ([AggOp.addRecs 1, AggOp.addBytes 3, AggOp.addRecs 1,
      AggOp.swapRecs, AggOp.addBytes 3, AggOp.swapBytes, AggOp.addRecs 1,
      AggOp.addBytes 3, AggOp.addRecs 1, AggOp.addBytes 3] ++ drainOps) = (2 * 2 : Nat) * 3 :=
  ⟨by decide, by decide,
    (aggregator_conservation 3 2 2 _ (by decide) (by decide) (by decide)).1,
    (aggregator_conservation 3 2 2 _ (by decide) (by decide) (by decide)).2⟩

/-- C2: drain is read-and-reset.  After any interleaving `t` of `k`
`addRecords(1, b)` callback pairs on a freshly-zeroed aggregator, a drain
returns exactly `(k, k*b)`, leaves both counters at zero, and an immediately
following drain (no intervening increments) returns `(0, 0)`. -/
theorem drain_read_and_reset (k : Nat) (b : Int) (t : List AggOp)
    (ht : t.Perm (List.flatten (List.replicate k (addRecords 1 b)))) :
    aggRun ⟨0, 0⟩ (t ++ drainOps ++ drainOps) =
      (⟨0, 0⟩, [(k : Int), 0], [(k : Int) * b, 0]) := by
  have hadds : ∀ op ∈ t, (∃ n, op = AggOp.addRecs n) ∨ ∃ n, op = AggOp.addBytes n := by
    intro op hop
    rcases mem_flatten_replicate_addRecords k b op (ht.mem_iff.mp hop) with rfl | rfl
    · exact Or.inl ⟨1, rfl⟩
    · exact Or.inr ⟨b, rfl⟩
  rw [List.append_assoc, aggRun_adds_prefix t hadds (drainOps ++ drainOps) ⟨0, 0⟩]
  rw [addedRecs_perm ht, addedBytes_perm ht,
    addedRecs_flatten_replicate b k, addedBytes_flatten_replicate b k]
  simp [aggRun, drainOps]

theorem drain_read_and_reset_witness :
    ([AggOp.addRecs 1, AggOp.addRecs 1, AggOp.addBytes 3, AggOp.addBytes 3] : List AggOp).Perm
      (List.flatten (List.replicate 2 (addRecords 1 3))) ∧
    aggRun ⟨0, 0⟩ ([AggOp.addRecs 1, AggOp.addRecs 1, AggOp.addBytes 3, AggOp.addBytes 3] ++
        drainOps ++ drainOps) =
      (⟨0, 0⟩, [(2 : Int), 0], [(2 : Int) * 3, 0]) :=
  ⟨by decide, drain_read_and_reset 2 3 _ (by decide)⟩

/-! ## Claim theorems: the completion callback -/

/-- C5: completion-callback contract.  Invoked with no error, the callback
increments the aggregator by exactly (1 record, `recordSize` bytes) and the
process continues (no exit).  Invoked with an error, `chk` makes the whole
process terminate with the diagnostic "produce error: ..." naming the
produce error and exit status 1 (non-zero), and no counter is incremented
for that record (the state is returned untouched). -/
theorem produce_callback_contract (recordSize : Int) (s : AggState) :
    produceCallback recordSize s Option.none =
      (⟨s.rateRecs + 1, s.rateBytes + recordSize⟩, Option.none) ∧
    ∀ e : String,
      (produceCallback recordSize s (some e)).1 = s ∧
      (produceCallback recordSize s (some e)).2 = some ("produce error: " ++ e, 1) := by
  exact ⟨rfl, fun e => ⟨rfl, rfl⟩⟩

/-! ## Helper lemmas: configuration validation -/

theorem selectLogLevel_ok_of_mem (s : String) (h : strToLower s ∈ validLogLevels) :
    ∃ lv, selectLogLevel s = Except.ok lv := by
  simp only [validLogLevels, List.mem_cons, List.not_mem_nil, or_false] at h
  rcases h with h | h | h | h | h <;> simp [selectLogLevel, h]

theorem selectLogLevel_error_of_not_mem (s : String) (h : strToLower s ∉ validLogLevels) :
    selectLogLevel s = Except.error ("unrecognized log level " ++ s, 1) := by
  simp only [validLogLevels, List.mem_cons, List.not_mem_nil, or_false, not_or] at h
  obtain ⟨h1, h2, h3, h4, h5⟩ := h
  simp [selectLogLevel, h1, h2, h3, h4, h5]

theorem selectCompression_ok_of_mem (s : String) (h : strToLower s ∈ validCompressions) :
    ∃ c, selectCompression s = Except.ok c := by
  simp only [validCompressions, List.mem_cons, List.not_mem_nil, or_false] at h
  rcases h with h | h | h | h | h <;> simp [selectCompression, h]

theorem selectCompression_error_of_not_mem (s : String)
    (h : strToLower s ∉ validCompressions) :
    selectCompression s = Except.error ("unrecognized compression " ++ s, 1) := by
  simp only [validCompressions, List.mem_cons, List.not_mem_nil, or_false, not_or] at h
  obtain ⟨h1, h2, h3, h4, h5⟩ := h
  simp [selectCompression, h1, h2, h3, h4, h5]

/-! ## Claim theorems: configuration validation -/

/-- C6 counterexample: the claim's literal reading fails.  `"GZIP"` is not
one of `{none, gzip, snappy, lz4, zstd}`, yet `main`'s configuration phase
(with the other three flags valid) does not abort: the switch matches on
`strings.ToLower` of the flag, so validation succeeds and the workers are
started with gzip compression. -/
theorem config_validation_literal_counterexample :
    "GZIP" ∉ validCompressions ∧
    validateConfig 100 1 "" "GZIP" =
      Except.ok (LogSelection.noLogger, Compression.gzip) := by
  exact ⟨by decide, by decide⟩

/-- C6 (amended): configuration validation is fail-fast — if
`record-size ≤ 0`, or `num-clients ≤ 0`, or the compression string's
lowercase form is not one of `{none, gzip, snappy, lz4, zstd}`, or the
log-level string's lowercase form is not one of
`{"", debug, info, warn, error}`, then the program prints a one-line
diagnostic and exits with status 1 (non-zero), before any worker is started
(`Except.error` means `die` ran during the configuration phase, which
precedes the `go func()` loop); with all four valid, none of these checks
aborts. -/
theorem config_validation_fail_fast (recordSize numClients : Int)
    (logLevel compression : String) :
    ((recordSize ≤ 0 ∨ numClients ≤ 0 ∨ strToLower compression ∉ validCompressions ∨
        strToLower logLevel ∉ validLogLevels) →
      ∃ msg, validateConfig recordSize numClients logLevel compression =
        Except.error (msg, 1)) ∧
    (0 < recordSize → 0 < numClients → strToLower compression ∈ validCompressions →
      strToLower logLevel ∈ validLogLevels →
      ∃ cfg, validateConfig recordSize numClients logLevel compression =
        Except.ok cfg) := by
  constructor
  · intro hbad
    by_cases hrs : recordSize ≤ 0
    · exact ⟨"record bytes must be larger than zero", by simp [validateConfig, hrs]⟩
    · by_cases hll : strToLower logLevel ∈ validLogLevels
      · obtain ⟨lv, hlv⟩ := selectLogLevel_ok_of_mem logLevel hll
        by_cases hcomp : strToLower compression ∈ validCompressions
        · obtain ⟨c, hc⟩ := selectCompression_ok_of_mem compression hcomp
          have hnc : numClients ≤ 0 := by tauto
          exact ⟨"number of clients must be positive",
            by simp [validateConfig, hrs, hlv, hc, hnc]⟩
        · have hc := selectCompression_error_of_not_mem compression hcomp
          exact ⟨"unrecognized compression " ++ compression,
            by simp [validateConfig, hrs, hlv, hc]⟩
      · have hlv := selectLogLevel_error_of_not_mem logLevel hll
        exact ⟨"unrecognized log level " ++ logLevel,
          by simp [validateConfig, hrs, hlv]⟩
  · intro hrs hnc hcomp hll
    obtain ⟨lv, hlv⟩ := selectLogLevel_ok_of_mem logLevel hll
    obtain ⟨c, hc⟩ := selectCompression_ok_of_mem compression hcomp
    have hrs' : ¬recordSize ≤ 0 := by omega
    have hnc' : ¬numClients ≤ 0 := by omega
    exact ⟨(lv, c), by simp [validateConfig, hrs', hlv, hc, hnc']⟩

theorem config_validation_fail_fast_witness :
    ((0 : Int) ≤ 0 ∨ (1 : Int) ≤ 0 ∨ strToLower "none" ∉ validCompressions ∨
      strToLower "" ∉ validLogLevels) ∧
    (∃ msg, validateConfig 0 1 "" "none" = Except.error (msg, 1)) ∧
    (0 < (100 : Int) ∧ 0 < (1 : Int) ∧ strToLower "none" ∈ validCompressions ∧
      strToLower "" ∈ validLogLevels) ∧
    ∃ cfg, validateConfig 100 1 "" "none" = Except.ok cfg :=
  ⟨Or.inl le_rfl,
    (config_validation_fail_fast 0 1 "" "none").1 (Or.inl le_rfl),
    ⟨by decide, by decide, by decide, by decide⟩,
    (config_validation_fail_fast 100 1 "" "none").2 (by decide) (by decide)
      (by decide) (by decide)⟩

/-- C9: the compression and log-level flag values are matched
case-insensitively — any string whose lowercase form is a recognized value
is accepted (the switch yields `Except.ok`) and behaves identically to its
lowercase form, because the switches match on `strings.ToLower` of the
flag. -/
theorem flags_case_insensitive (s : String) :
    (strToLower s ∈ validCompressions →
      (∃ c, selectCompression s = Except.ok c) ∧
      selectCompression s = selectCompression (strToLower s)) ∧
    (strToLower s ∈ validLogLevels →
      (∃ lv, selectLogLevel s = Except.ok lv) ∧
      selectLogLevel s = selectLogLevel (strToLower s)) := by
  constructor
  · intro h
    refine ⟨selectCompression_ok_of_mem s h, ?_⟩
    simp only [validCompressions, List.mem_cons, List.not_mem_nil, or_false] at h
    rcases h with h | h | h | h | h <;> rw [h] <;>
      simp [selectCompression, h] <;> decide
  · intro h
    refine ⟨selectLogLevel_ok_of_mem s h, ?_⟩
    simp only [validLogLevels, List.mem_cons, List.not_mem_nil, or_false] at h
    rcases h with h | h | h | h | h <;> rw [h] <;>
      simp [selectLogLevel, h] <;> decide

theorem flags_case_insensitive_witness :
    (strToLower "GZIP" ∈ validCompressions ∧
      selectCompression "GZIP" = selectCompression (strToLower "GZIP")) ∧
    (strToLower "Debug" ∈ validLogLevels ∧
      selectLogLevel "Debug" = selectLogLevel (strToLower "Debug")) :=
  ⟨⟨by decide, ((flags_case_insensitive "GZIP").1 (by decide)).2⟩,
    ⟨by decide, ((flags_case_insensitive "Debug").2 (by decide)).2⟩⟩

/-! ## Helper lemmas: the worker loop -/

theorem workerNumAfter_eq (k : Nat) : workerNumAfter k = k := by
  induction k with
  | zero => rfl
  | succ m ih => simp [workerNumAfter, ih]

/-! ## Claim theorems: the worker loop and client options -/

/-- C7: per-worker sequence counter.  Each worker's counter `num` starts at
0 and is incremented exactly once per produce attempt (the increment follows
the non-blocking `Produce` call immediately, without waiting for the
acknowledgment callback), so it is strictly increasing over the worker's
submissions, and the record submitted on the worker's `k`-th iteration has
payload `formatValue(k, recordSize)`. -/
theorem worker_sequence (recordSize k j : Nat) :
    workerNumAfter 0 = 0 ∧
    workerNumAfter (k + 1) = workerNumAfter k + 1 ∧
    (j < k → workerNumAfter j < workerNumAfter k) ∧
    submittedPayload recordSize k = formatValue (k : Int) recordSize := by
  refine ⟨rfl, rfl, fun hjk => ?_, ?_⟩
  · rw [workerNumAfter_eq, workerNumAfter_eq]
    exact_mod_cast hjk
  · rw [submittedPayload, workerNumAfter_eq]

theorem worker_sequence_witness :
    (1 < 3 ∧ workerNumAfter 1 < workerNumAfter 3) ∧
    submittedPayload 4 3 = formatValue (3 : Int) 4 :=
  ⟨⟨by decide, (worker_sequence 4 3 1).2.2.1 (by decide)⟩,
    (worker_sequence 4 3 1).2.2.2⟩

/-- C8: buffered-records memory ceiling.  For every configured
`recordSize > 0`, `kgo.MaxBufferedRecords` is configured as
`⌊50·2²⁰ / recordSize⌋ + 1` (exact integer division), so the implied
buffered-bytes ceiling `maxBufferedRecords · recordSize` is strictly above
50 MiB but exceeds it by at most `recordSize` bytes. -/
theorem max_buffered_records_bound (recordSize : Nat) (h : 0 < recordSize) :
    maxBufferedRecords recordSize = 50 * 2 ^ 20 / recordSize + 1 ∧
    50 * 2 ^ 20 < maxBufferedRecords recordSize * recordSize ∧
    maxBufferedRecords recordSize * recordSize ≤ 50 * 2 ^ 20 + recordSize := by
  have hdef : maxBufferedRecords recordSize = 50 * 2 ^ 20 / recordSize + 1 := by
    simp [maxBufferedRecords, Nat.shiftLeft_eq]
  have hdm := Nat.div_add_mod (50 * 2 ^ 20) recordSize
  have hlt := Nat.mod_lt (50 * 2 ^ 20) h
  have hexp : (50 * 2 ^ 20 / recordSize + 1) * recordSize =
      recordSize * (50 * 2 ^ 20 / recordSize) + recordSize := by ring
  refine ⟨hdef, ?_, ?_⟩
  · rw [hdef, hexp]; omega
  · rw [hdef, hexp]; omega

theorem max_buffered_records_bound_witness :
    0 < 100 ∧
    (maxBufferedRecords 100 = 50 * 2 ^ 20 / 100 + 1 ∧
      50 * 2 ^ 20 < maxBufferedRecords 100 * 100 ∧
      maxBufferedRecords 100 * 100 ≤ 50 * 2 ^ 20 + 100) :=
  ⟨by decide, max_buffered_records_bound 100 (by decide)⟩
